import Mathlib

/-!
Verification of the `outline` subject-matting pipeline.

The Rust sources are shallowly embedded: grayscale and RGBA images become
width/height plus a row-major list of channel values (`u8` values are
modelled as `Nat`, `f32` arithmetic as exact `ℚ` arithmetic with Rust's
round-half-away-from-zero), fallible operations return `Except`, and the
flood-fill worklist loop becomes a fuel-indexed recursion whose fuel is a
proved upper bound on the number of loop iterations.

Third-party dependency functions that the sources call (`imageproc`'s
`threshold` and `euclidean_squared_distance_transform`) are modelled from
their documented behaviour, which the repository's own unit tests pin down.
-/

namespace Outline

/-- Grayscale image: `GrayImage` from the `image` crate, row-major raw data.
`data.getD (y * w + x) 0` models `mask.as_raw()[y * w + x]`. -/
structure Gray where
  w : Nat
  h : Nat
  data : List Nat
deriving DecidableEq, Repr

/-- Pixel read at `(x, y)`: models `img.get_pixel(x, y).0[0]` / raw indexing. -/
def Gray.at (m : Gray) (x y : Nat) : Nat :=
  m.data.getD (y * m.w + x) 0

/-- Row-major pixel table for a `w × h` image built from a pixel function. -/
def pxTable (w h : Nat) (f : Nat → Nat → α) : List α :=
  (List.range (w * h)).map (fun i => f (i % w) (i / w))

/-- Build a `w × h` grayscale image from a pixel function,
modelling `GrayImage::from_fn` / writing every pixel of a fresh buffer. -/
def grayOfFn (w h : Nat) (f : Nat → Nat → Nat) : Gray :=
  ⟨w, h, pxTable w h f⟩

/-! ### Threshold (src/mask.rs, `threshold_mask`)

`threshold_mask` delegates to `imageproc::contrast::threshold` with
`ThresholdType::Binary`. Modelled from the spec and the repository's
unit tests: a pixel strictly brighter than the threshold becomes 255,
every other pixel becomes 0. -/

def threshold_mask (gray : Gray) (thr : Nat) : Gray :=
  grayOfFn gray.w gray.h (fun x y => if thr < gray.at x y then 255 else 0)

/-! ### Layout inference (src/inference.rs) -/

inductive ChannelLayout where
  | nchw
  | nhwc
deriving DecidableEq, Repr

structure ModelInputSpec where
  width : Nat
  height : Nat
  layout : ChannelLayout
deriving DecidableEq, Repr

def DEFAULT_MODEL_INPUT_SPEC : ModelInputSpec :=
  ⟨320, 320, ChannelLayout.nchw⟩

/-- `positive_dim_to_usize`: positive `i64` dims convert, others are rejected. -/
def positive_dim_to_usize (dim : Int) : Option Nat :=
  if 0 < dim then some dim.toNat else none

/-- `infer_nchw_spec`: channels at index 1 must be 3 or dynamic (-1);
height/width at indices 2/3 must resolve to positive values. -/
def infer_nchw_spec (dims : List Int) : Option ModelInputSpec := do
  let channels ← dims.get? 1
  if channels ≠ 3 ∧ channels ≠ -1 then none
  else do
    let height ← dims.get? 2
    let width ← dims.get? 3
    let height ← positive_dim_to_usize height
    let width ← positive_dim_to_usize width
    some ⟨width, height, ChannelLayout.nchw⟩

/-- `infer_nhwc_spec`: channels at index 3 must be 3 or dynamic (-1);
height/width at indices 1/2 must resolve to positive values. -/
def infer_nhwc_spec (dims : List Int) : Option ModelInputSpec := do
  let channels ← dims.get? 3
  if channels ≠ 3 ∧ channels ≠ -1 then none
  else do
    let height ← dims.get? 1
    let width ← dims.get? 2
    let height ← positive_dim_to_usize height
    let width ← positive_dim_to_usize width
    some ⟨width, height, ChannelLayout.nhwc⟩

/-- `infer_model_input_spec`, with the `ort` session access modelled as the
declared input-tensor dims list (the part of the session the function reads). -/
def infer_model_input_spec (dims : List Int) : Option ModelInputSpec :=
  if dims.length ≥ 4 then
    match infer_nchw_spec dims with
    | some spec => some spec
    | none => infer_nhwc_spec dims
  else
    none

/-- `determine_model_input_spec`: inferred spec or the fixed default. -/
def determine_model_input_spec (dims : List Int) : ModelInputSpec :=
  (infer_model_input_spec dims).getD DEFAULT_MODEL_INPUT_SPEC

/-! ### Euclidean dilation (src/mask.rs, `dilate_euclidean`) -/

/-- Minimum of a list of naturals, `none` on the empty list. -/
def minOfList : List Nat → Option Nat
  | [] => none
  | a :: l =>
    match minOfList l with
    | none => some a
    | some b => some (min a b)

/-- Squared Euclidean distance between two pixel coordinates. -/
def sqDist (p q : Nat × Nat) : Nat :=
  (((p.1 : Int) - q.1) ^ 2 + ((p.2 : Int) - q.2) ^ 2).toNat

/-- Coordinates of all pixels with positive intensity (foreground). -/
def onCells (m : Gray) : List (Nat × Nat) :=
  (List.range m.h).flatMap fun y =>
    (List.range m.w).filterMap fun x =>
      if 0 < m.at x y then some (x, y) else none

/-- Modelled from the spec: `imageproc::distance_transform::`
`euclidean_squared_distance_transform` is a dependency whose code is not in
this repository. Per its documentation and the spec it yields, per pixel, the
squared L2 distance to the nearest pixel of positive intensity; `none` models
the no-foreground case (infinite distance). -/
def euclidean_squared_distance_transform (m : Gray) (x y : Nat) : Option Nat :=
  minOfList ((onCells m).map (sqDist (x, y)))

/-- `dilate_euclidean`: a pixel becomes 255 iff its squared distance to the
nearest foreground pixel is at most `r * r` (as `f64`, modelled exactly in ℚ). -/
def dilate_euclidean (mask_bin : Gray) (r : ℚ) : Gray :=
  grayOfFn mask_bin.w mask_bin.h fun x y =>
    match euclidean_squared_distance_transform mask_bin x y with
    | some d2 => if (d2 : ℚ) ≤ r * r then 255 else 0
    | none => 0

/-! ### Hole filling (src/mask.rs, `fill_mask_holes`)

The Rust function flood-fills from all dark border pixels with a `VecDeque`
worklist and a `visited` bitmap. The loop is embedded as a fuel-indexed
recursion; `fillFuel` is an upper bound (proved below) on the number of loop
iterations, so the recursion always runs the worklist to exhaustion. -/

/-- Raw-buffer index of a coordinate pair: `idx(x, y) = y * w + x`. -/
def idOf (w : Nat) (c : Nat × Nat) : Nat :=
  c.2 * w + c.1

/-- A coordinate pair lies inside the image. -/
def validc (w h : Nat) (c : Nat × Nat) : Prop :=
  c.1 < w ∧ c.2 < h

instance (w h : Nat) (c : Nat × Nat) : Decidable (validc w h c) := by
  unfold validc; infer_instance

/-- 4-connectivity: `n` is the left, right, up or down neighbour of `c`. -/
def adjc (c n : Nat × Nat) : Prop :=
  (n.1 + 1 = c.1 ∧ n.2 = c.2) ∨ (n.1 = c.1 + 1 ∧ n.2 = c.2) ∨
    (n.2 + 1 = c.2 ∧ n.1 = c.1) ∨ (n.2 = c.2 + 1 ∧ n.1 = c.1)

/-- `darkb m thr x y` models `mask_raw[idx(x, y)] < threshold`. -/
def darkb (m : Gray) (thr : Nat) (x y : Nat) : Bool :=
  decide (m.at x y < thr)

/-- Dark pixels on the four image borders, in the enqueue order of the source:
top/bottom rows first (per column), then left/right columns (per row). -/
def seeds (w h : Nat) (dark : Nat → Nat → Bool) : List (Nat × Nat) :=
  ((List.range w).flatMap fun x =>
      (if dark x 0 then [(x, 0)] else []) ++
        (if dark x (h - 1) then [(x, h - 1)] else []))
    ++ ((List.range h).flatMap fun y =>
      (if dark 0 y then [(0, y)] else []) ++
        (if dark (w - 1) y then [(w - 1, y)] else []))

/-- Conditional `push_back` onto the worklist. -/
def pushIf (p : Prop) [Decidable p] (q : List (Nat × Nat)) (c : Nat × Nat) :
    List (Nat × Nat) :=
  if p then q ++ [c] else q

/-- Enqueue the unvisited dark neighbours of `c`,
in source order: left, right, up, down. -/
def nbrQueue (w h : Nat) (dark : Nat → Nat → Bool) (c : Nat × Nat)
    (vis : List Nat) (rest : List (Nat × Nat)) : List (Nat × Nat) :=
  pushIf (c.2 + 1 < h ∧ idOf w (c.1, c.2 + 1) ∉ vis ∧ dark c.1 (c.2 + 1) = true)
    (pushIf (0 < c.2 ∧ idOf w (c.1, c.2 - 1) ∉ vis ∧ dark c.1 (c.2 - 1) = true)
      (pushIf (c.1 + 1 < w ∧ idOf w (c.1 + 1, c.2) ∉ vis ∧ dark (c.1 + 1) c.2 = true)
        (pushIf (0 < c.1 ∧ idOf w (c.1 - 1, c.2) ∉ vis ∧ dark (c.1 - 1) c.2 = true)
          rest (c.1 - 1, c.2))
        (c.1 + 1, c.2))
      (c.1, c.2 - 1))
    (c.1, c.2 + 1)

/-- The BFS worklist loop of `fill_mask_holes`: pop the front; skip if already
visited; otherwise mark visited and enqueue unvisited dark neighbours. -/
def bfsAux (w h : Nat) (dark : Nat → Nat → Bool) :
    Nat → List (Nat × Nat) → List Nat → List Nat
  | 0, _, visited => visited
  | _ + 1, [], visited => visited
  | fuel + 1, c :: rest, visited =>
    if idOf w c ∈ visited then
      bfsAux w h dark fuel rest visited
    else
      bfsAux w h dark fuel (nbrQueue w h dark c (idOf w c :: visited) rest)
        (idOf w c :: visited)

/-- Fuel bound for the worklist loop: every iteration either pops a visited
element (dropping the queue length) or visits a fresh in-bounds index (at most
`w * h` of those, each adding at most 4 queue entries). -/
def fillFuel (m : Gray) (thr : Nat) : Nat :=
  (seeds m.w m.h (darkb m thr)).length + 5 * (m.w * m.h)

/-- Indices marked visited by the border flood fill of `fill_mask_holes`. -/
def fillVisited (m : Gray) (thr : Nat) : List Nat :=
  bfsAux m.w m.h (darkb m thr) (fillFuel m thr) (seeds m.w m.h (darkb m thr)) []

/-- `fill_mask_holes`: a pixel is 255 iff it is at/above the threshold or was
not reached by the border flood fill; dark border-connected pixels stay 0. -/
def fill_mask_holes (m : Gray) (thr : Nat) : Gray :=
  grayOfFn m.w m.h fun x y =>
    if thr ≤ m.at x y ∨ (y * m.w + x) ∉ fillVisited m thr then 255 else 0

/-- Border-flood reachability: the dark pixels 4-connected, through dark
pixels, to some dark border pixel. This is the specification the BFS loop is
proved to compute. -/
inductive Reach (w h : Nat) (dark : Nat → Nat → Bool) : Nat × Nat → Prop where
  | border (c : Nat × Nat) : validc w h c →
      (c.1 = 0 ∨ c.1 = w - 1 ∨ c.2 = 0 ∨ c.2 = h - 1) → dark c.1 c.2 = true →
      Reach w h dark c
  | step (c n : Nat × Nat) : Reach w h dark c → adjc c n → validc w h n →
      dark n.1 n.2 = true → Reach w h dark n

/-- Unvisited in-bounds indices: the potential of the BFS measure. -/
def unseen (n : Nat) (visited : List Nat) : Finset Nat :=
  (Finset.range n).filter (fun i => i ∉ visited)

/-- Termination measure of the BFS worklist loop. -/
def bfsMeasure (n : Nat) (queue : List (Nat × Nat)) (visited : List Nat) : Nat :=
  queue.length + 5 * (unseen n visited).card

/-! ### RGB / RGBA images (src/layer.rs, src/foreground.rs) -/

/-- An RGBA pixel (`image::Rgba<u8>`). -/
structure Px where
  r : Nat
  g : Nat
  b : Nat
  a : Nat
deriving DecidableEq, Repr

/-- All four channels fit in a `u8` (automatic for genuine Rust images). -/
def Px.wf (p : Px) : Prop :=
  p.r ≤ 255 ∧ p.g ≤ 255 ∧ p.b ≤ 255 ∧ p.a ≤ 255

instance (p : Px) : Decidable p.wf := by
  unfold Px.wf; infer_instance

/-- An RGB pixel (`image::Rgb<u8>`). -/
structure Px3 where
  r : Nat
  g : Nat
  b : Nat
deriving DecidableEq, Repr

/-- `RgbaImage`, row-major. -/
structure Rgba where
  w : Nat
  h : Nat
  data : List Px
deriving DecidableEq, Repr

/-- `RgbImage`, row-major. -/
structure Rgb where
  w : Nat
  h : Nat
  data : List Px3
deriving DecidableEq, Repr

/-- Pixel read of an RGBA image. -/
def Rgba.px (im : Rgba) (x y : Nat) : Px :=
  im.data.getD (y * im.w + x) ⟨0, 0, 0, 0⟩

/-- Pixel read of an RGB image. -/
def Rgb.px (im : Rgb) (x y : Nat) : Px3 :=
  im.data.getD (y * im.w + x) ⟨0, 0, 0⟩

/-- Build a `w × h` RGBA image from a pixel function. -/
def rgbaOfFn (w h : Nat) (f : Nat → Nat → Px) : Rgba :=
  ⟨w, h, pxTable w h f⟩

/-- Rust `f32::round`: round half away from zero (modelled on ℚ). -/
def rustRound (q : ℚ) : Int :=
  if q < 0 then -(Int.floor (-q + 1 / 2)) else Int.floor (q + 1 / 2)

/-- `.clamp(0.0, 255.0) as u8` applied to an integral value. -/
def clampToByte (z : Int) : Nat :=
  (min 255 (max 0 z)).toNat

/-- `MaskAlphaMode` from src/layer.rs. -/
inductive MaskAlphaMode where
  | useMask
  | scale (factor : ℚ)
  | solid (alpha : Nat)
deriving DecidableEq, Repr

/-- `MaskFill` from src/layer.rs. -/
structure MaskFill where
  color : Px
  alpha_mode : MaskAlphaMode
deriving DecidableEq, Repr

/-- `resolve_mask_alpha` (src/layer.rs): the `f32` arithmetic of the `Scale`
arm (`(v as f32 * scale.max(0.0)).round().clamp(0.0, 255.0) as u8`) is
modelled exactly in ℚ. -/
def resolve_mask_alpha (mask_value : Nat) (mode : MaskAlphaMode) : Nat :=
  match mode with
  | .useMask => mask_value
  | .scale s => clampToByte (rustRound ((mask_value : ℚ) * max s 0))
  | .solid alpha => if 0 < mask_value then alpha else 0

/-- The spec's formula for `resolve`: `round(clamp(v * max(f, 0), 0, 255))`,
clamping before rounding (the code rounds before clamping). -/
def resolve_mask_alpha_spec (mask_value : Nat) (mode : MaskAlphaMode) : Nat :=
  match mode with
  | .useMask => mask_value
  | .scale s => (rustRound (min 255 (max 0 ((mask_value : ℚ) * max s 0)))).toNat
  | .solid alpha => if 0 < mask_value then alpha else 0

/-- `create_rgba_layer_from_mask` (src/layer.rs): RGB channels are the fill
color; alpha is `mask_alpha * base_alpha / 255` in exact `u16` arithmetic. -/
def create_rgba_layer_from_mask (mask : Gray) (fill : MaskFill) : Rgba :=
  rgbaOfFn mask.w mask.h fun x y =>
    let mask_alpha := resolve_mask_alpha (mask.at x y) fill.alpha_mode
    ⟨fill.color.r, fill.color.g, fill.color.b, mask_alpha * fill.color.a / 255⟩

/-- Loop body of `alpha_composite` (src/layer.rs): Porter-Duff over for one
pixel, with the `f32` arithmetic modelled exactly in ℚ. If `out_a` is zero
the RGB channels stay 0, as in the source. -/
def overPx (bg fg : Px) : Px :=
  let fg_a : ℚ := (fg.a : ℚ) / 255
  let bg_a : ℚ := (bg.a : ℚ) / 255
  let out_a : ℚ := fg_a + bg_a * (1 - fg_a)
  let blend := fun (fc bc : Nat) =>
    if 0 < out_a then
      clampToByte (rustRound
        ((fc : ℚ) * (fg_a / out_a) + (bc : ℚ) * (bg_a * (1 - fg_a) / out_a)))
    else 0
  ⟨blend fg.r bg.r, blend fg.g bg.g, blend fg.b bg.b,
    clampToByte (rustRound (out_a * 255))⟩

/-- `alpha_composite` (src/layer.rs): per-pixel Porter-Duff over. The output
has the bottom image's dimensions; callers guarantee equal dimensions
(debug-asserted in the source). -/
def alpha_composite (bottom top : Rgba) : Rgba :=
  rgbaOfFn bottom.w bottom.h fun x y => overPx (bottom.px x y) (top.px x y)

/-- `OutlineError` (src/error.rs), restricted to the variant the verified
functions produce. -/
inductive OutlineError where
  | alphaMismatch (expected found : Nat × Nat)
deriving DecidableEq, Repr

/-- `compose_foreground` (src/foreground.rs). -/
def compose_foreground (rgb : Rgb) (alpha : Gray) : Except OutlineError Rgba :=
  if (rgb.w, rgb.h) ≠ (alpha.w, alpha.h) then
    .error (.alphaMismatch (rgb.w, rgb.h) (alpha.w, alpha.h))
  else
    .ok (rgbaOfFn rgb.w rgb.h fun x y =>
      let p := rgb.px x y
      ⟨p.r, p.g, p.b, alpha.at x y⟩)

/-! ### Mask pipeline and handles (src/config.rs, src/mask.rs, src/lib.rs)

Gaussian blur (`imageproc::filter::gaussian_blur_f32`) is an external
dependency; it is kept abstract as an explicit function argument
`gaussian_blur_f32`, so every theorem below holds for any blur
implementation. -/

/-- `MaskProcessingOptions` (src/config.rs). -/
structure MaskProcessingOptions where
  binary : Bool
  blur : Bool
  blur_sigma : ℚ
  mask_threshold : Nat
  dilate : Bool
  dilation_radius : ℚ
  fill_holes : Bool
deriving DecidableEq, Repr

/-- `MaskProcessingOptions::default()`. -/
def MaskProcessingOptions.default : MaskProcessingOptions :=
  ⟨false, false, 6, 120, false, 5, false⟩

/-- `MaskOperation` (src/mask.rs). -/
inductive MaskOperation where
  | blur (sigma : ℚ)
  | threshold (value : Nat)
  | dilate (radius : ℚ)
  | fillHoles (threshold : Nat)
deriving DecidableEq, Repr

/-- `MaskOperation::apply` (src/mask.rs). -/
def MaskOperation.apply (gaussian_blur_f32 : ℚ → Gray → Gray) :
    MaskOperation → Gray → Gray
  | .blur sigma, input => gaussian_blur_f32 sigma input
  | .threshold value, input => threshold_mask input value
  | .dilate radius, input => dilate_euclidean input radius
  | .fillHoles thr, input => fill_mask_holes input thr

/-- `apply_operations` (src/mask.rs): left fold of the operation list. -/
def apply_operations (gaussian_blur_f32 : ℚ → Gray → Gray) (source : Gray)
    (operations : List MaskOperation) : Gray :=
  operations.foldl (fun current op => op.apply gaussian_blur_f32 current) source

/-- `operations_from_options` (src/mask.rs): canonical order
blur, threshold, dilate, fill-holes, each gated by its flag. -/
def operations_from_options (options : MaskProcessingOptions) :
    List MaskOperation :=
  (if options.blur then [.blur options.blur_sigma] else [])
    ++ (if options.binary then [.threshold options.mask_threshold] else [])
    ++ (if options.dilate then [.dilate options.dilation_radius] else [])
    ++ (if options.fill_holes then [.fillHoles options.mask_threshold] else [])

/-- `MatteHandle` (src/lib.rs). -/
structure MatteHandle where
  rgb_image : Rgb
  raw_matte : Gray
  default_mask_processing : MaskProcessingOptions
  operations : List MaskOperation

/-- `MaskHandle` (src/lib.rs). -/
structure MaskHandle where
  rgb_image : Rgb
  mask : Gray
  default_mask_processing : MaskProcessingOptions
  operations : List MaskOperation

/-- `MatteHandle::processed` (src/lib.rs): with `Some(custom)` the
override-derived operations are appended after the queued ones; with `None`
the defaults are used only when the queue is empty. The Rust `Ok` wrapper
(the function never errors) is omitted. -/
def MatteHandle.processed (gaussian_blur_f32 : ℚ → Gray → Gray)
    (self : MatteHandle) (options : Option MaskProcessingOptions) : MaskHandle :=
  let ops :=
    match options with
    | some custom => self.operations ++ operations_from_options custom
    | none =>
      if self.operations.isEmpty then
        self.operations ++ operations_from_options self.default_mask_processing
      else
        self.operations
  ⟨self.rgb_image, apply_operations gaussian_blur_f32 self.raw_matte ops,
    self.default_mask_processing, []⟩

/-- `MaskHandle::processed` (src/lib.rs): same selection logic as
`MatteHandle::processed`, applied to the current mask. -/
def MaskHandle.processed (gaussian_blur_f32 : ℚ → Gray → Gray)
    (self : MaskHandle) (options : Option MaskProcessingOptions) : MaskHandle :=
  let ops :=
    match options with
    | some custom => self.operations ++ operations_from_options custom
    | none =>
      if self.operations.isEmpty then
        self.operations ++ operations_from_options self.default_mask_processing
      else
        self.operations
  ⟨self.rgb_image, apply_operations gaussian_blur_f32 self.mask ops,
    self.default_mask_processing, []⟩

/-! ## Theorems -/

/-! ### Indexing lemmas -/

theorem index_lt_of_lt {w h x y : Nat} (hx : x < w) (hy : y < h) :
    y * w + x < w * h := by
  calc y * w + x < y * w + w := by omega
    _ = (y + 1) * w := by ring
    _ ≤ h * w := Nat.mul_le_mul_right w hy
    _ = w * h := Nat.mul_comm h w

theorem pxTable_getD {α : Type} (w h : Nat) (f : Nat → Nat → α) (d : α)
    {x y : Nat} (hx : x < w) (hy : y < h) :
    (pxTable w h f).getD (y * w + x) d = f x y := by
  have hidx : y * w + x < w * h := index_lt_of_lt hx hy
  have hlen : (pxTable w h f).length = w * h := by simp [pxTable]
  rw [List.getD_eq_getElem _ _ (by simpa [hlen] using hidx)]
  unfold pxTable
  simp only [List.getElem_map, List.getElem_range]
  have hmod : (y * w + x) % w = x := by
    rw [Nat.add_comm, Nat.add_mul_mod_self_right, Nat.mod_eq_of_lt hx]
  have hdiv : (y * w + x) / w = y := by
    rw [Nat.add_comm, Nat.add_mul_div_right _ _ (by omega : 0 < w),
      Nat.div_eq_of_lt hx]
    omega
  rw [hmod, hdiv]

theorem at_grayOfFn (w h : Nat) (f : Nat → Nat → Nat) {x y : Nat}
    (hx : x < w) (hy : y < h) : (grayOfFn w h f).at x y = f x y :=
  pxTable_getD w h f 0 hx hy

theorem px_rgbaOfFn (w h : Nat) (f : Nat → Nat → Px) {x y : Nat}
    (hx : x < w) (hy : y < h) : (rgbaOfFn w h f).px x y = f x y :=
  pxTable_getD w h f ⟨0, 0, 0, 0⟩ hx hy

/-! ### C2: layout inference -/

/-- C2 (counterexample): the declared shape `[1,-1,-1,3]` does not yield an
NHWC spec. The NCHW branch accepts the dynamic channel dim but rejects the
dynamic height, the NHWC branch rejects the dynamic height as well, so
`determine_model_input_spec` falls back to the 320×320 NCHW default. -/
theorem layout_inference_dynamic_hw_cex :
    determine_model_input_spec [1, -1, -1, 3] = DEFAULT_MODEL_INPUT_SPEC ∧
    (determine_model_input_spec [1, -1, -1, 3]).layout ≠ ChannelLayout.nhwc := by
  constructor <;> decide

/-- C2 (amended): layout inference from a declared 4-dim shape satisfies:
`[1,3,320,320]` yields NCHW 320×320; `[1,320,320,3]` yields NHWC 320×320;
`[1,-1,-1,3]` yields the fallback default spec (the dynamic height/width
dims resolve to non-positive values and are rejected); and `[1,5,5,5]`
(no channel match) also yields the fallback default spec. -/
theorem layout_inference_cases :
    determine_model_input_spec [1, 3, 320, 320] = ⟨320, 320, ChannelLayout.nchw⟩ ∧
    determine_model_input_spec [1, 320, 320, 3] = ⟨320, 320, ChannelLayout.nhwc⟩ ∧
    determine_model_input_spec [1, -1, -1, 3] = ⟨320, 320, ChannelLayout.nchw⟩ ∧
    determine_model_input_spec [1, 5, 5, 5] = ⟨320, 320, ChannelLayout.nchw⟩ := by
  refine ⟨by decide, by decide, by decide, by decide⟩

/-! ### C3: threshold -/

/-- C3: `Threshold` maps each pixel strictly brighter than the threshold to
255 and every other pixel (including pixels equal to the threshold) to 0;
hence the output is binary, and the dimensions equal the input's. -/
theorem threshold_mask_spec (m : Gray) (thr : Nat) :
    (threshold_mask m thr).w = m.w ∧ (threshold_mask m thr).h = m.h ∧
    ∀ x, x < m.w → ∀ y, y < m.h →
      ((threshold_mask m thr).at x y = 255 ↔ thr < m.at x y) ∧
      ((threshold_mask m thr).at x y = 0 ↔ m.at x y ≤ thr) ∧
      ((threshold_mask m thr).at x y = 0 ∨ (threshold_mask m thr).at x y = 255) := by
  refine ⟨rfl, rfl, fun x hx y hy => ?_⟩
  rw [threshold_mask, at_grayOfFn _ _ _ hx hy]
  split <;> rename_i hcmp <;> refine ⟨?_, ?_, ?_⟩ <;> simp <;> omega

/-- Witness for C3 on the 2×2 image with pixel values 127, 128, 129, 255
and threshold 128 (the repository's own `mixed_values_per_pixel` test):
the pixel equal to the threshold goes to 0, the brighter one to 255. -/
theorem threshold_mask_spec_witness :
    (0 : Nat) < 2 ∧
    (threshold_mask ⟨2, 2, [127, 128, 129, 255]⟩ 128).at 1 0 = 0 ∧
    (threshold_mask ⟨2, 2, [127, 128, 129, 255]⟩ 128).at 0 1 = 255 := by
  have h := threshold_mask_spec ⟨2, 2, [127, 128, 129, 255]⟩ 128
  exact ⟨by decide,
    (h.2.2 1 (by decide) 0 (by decide)).2.1.mpr (by decide),
    (h.2.2 0 (by decide) 1 (by decide)).1.mpr (by decide)⟩

/-! ### C9: compose_foreground -/

/-- C9: `compose_foreground` succeeds exactly when the RGB image and the
alpha matte have identical dimensions; on success every output pixel is
`(R, G, B, alpha_value)`, and on mismatch the error is `AlphaMismatch` whose
`expected` is the RGB image's dimensions and whose `found` is the alpha
mask's. -/
theorem compose_foreground_spec (rgb : Rgb) (alpha : Gray) :
    ((compose_foreground rgb alpha).isOk = true ↔
      (rgb.w, rgb.h) = (alpha.w, alpha.h)) ∧
    (∀ out, compose_foreground rgb alpha = .ok out →
      out.w = rgb.w ∧ out.h = rgb.h ∧
      ∀ x, x < rgb.w → ∀ y, y < rgb.h →
        out.px x y =
          ⟨(rgb.px x y).r, (rgb.px x y).g, (rgb.px x y).b, alpha.at x y⟩) ∧
    ((rgb.w, rgb.h) ≠ (alpha.w, alpha.h) →
      compose_foreground rgb alpha =
        .error (.alphaMismatch (rgb.w, rgb.h) (alpha.w, alpha.h))) := by
  by_cases hdim : (rgb.w, rgb.h) = (alpha.w, alpha.h)
  · refine ⟨by simp [compose_foreground, hdim, Except.isOk, Except.toBool], ?_, fun hne => absurd hdim hne⟩
    intro out hout
    rw [compose_foreground, if_neg (by simpa using hdim)] at hout
    cases hout
    exact ⟨rfl, rfl, fun x hx y hy => px_rgbaOfFn _ _ _ hx hy⟩
  · refine ⟨by simp [compose_foreground, hdim, Except.isOk, Except.toBool], ?_, fun _ => ?_⟩
    · intro out hout
      rw [compose_foreground, if_pos hdim] at hout
      cases hout
    · rw [compose_foreground, if_pos hdim]

/-- Witness for C9: a 1×1 RGB `(10,20,30)` with alpha mask value 128 yields
RGBA `(10,20,30,128)`, and a 1×1 / 2×1 mismatch produces
`AlphaMismatch { expected := (1,1), found := (2,1) }`. -/
theorem compose_foreground_spec_witness :
    compose_foreground ⟨1, 1, [⟨10, 20, 30⟩]⟩ ⟨1, 1, [128]⟩ =
      .ok ⟨1, 1, [⟨10, 20, 30, 128⟩]⟩ ∧
    (Rgba.px ⟨1, 1, [⟨10, 20, 30, 128⟩]⟩ 0 0) = ⟨10, 20, 30, 128⟩ ∧
    compose_foreground ⟨1, 1, [⟨10, 20, 30⟩]⟩ ⟨2, 1, [128, 0]⟩ =
      .error (.alphaMismatch (1, 1) (2, 1)) := by
  have hok : compose_foreground ⟨1, 1, [⟨10, 20, 30⟩]⟩ ⟨1, 1, [128]⟩ =
      .ok ⟨1, 1, [⟨10, 20, 30, 128⟩]⟩ := rfl
  have hpx := ((compose_foreground_spec ⟨1, 1, [⟨10, 20, 30⟩]⟩
      ⟨1, 1, [128]⟩).2.1 _ hok).2.2 0 (by decide) 0 (by decide)
  refine ⟨hok, by simpa using hpx, ?_⟩
  exact (compose_foreground_spec ⟨1, 1, [⟨10, 20, 30⟩]⟩ ⟨2, 1, [128, 0]⟩).2.2
    (by decide)

/-! ### C6, C10: Euclidean dilation -/

theorem minOfList_exists_le {l : List Nat} {a : Nat} (ha : a ∈ l) :
    ∃ d, minOfList l = some d ∧ d ≤ a := by
  induction l with
  | nil => cases ha
  | cons b t ih =>
    rcases List.mem_cons.mp ha with rfl | hat
    · cases ht : minOfList t with
      | none => exact ⟨a, by rw [minOfList, ht], le_refl a⟩
      | some bmin => exact ⟨min a bmin, by rw [minOfList, ht], min_le_left _ _⟩
    · obtain ⟨d, hd, hda⟩ := ih hat
      exact ⟨min b d, by rw [minOfList, hd], le_trans (min_le_right _ _) hda⟩

theorem mem_onCells_self {m : Gray} {x y : Nat} (hx : x < m.w) (hy : y < m.h)
    (hpos : 0 < m.at x y) : (x, y) ∈ onCells m := by
  rw [onCells]
  refine List.mem_flatMap.mpr ⟨y, List.mem_range.mpr hy, ?_⟩
  exact List.mem_filterMap.mpr ⟨x, List.mem_range.mpr hx, by rw [if_pos hpos]⟩

/-- C6: Euclidean dilation is monotone in the radius; for `0 ≤ r1 ≤ r2`,
every pixel that is 255 after dilation with `r1` is 255 after dilation with
`r2` (the squared-distance threshold only grows). -/
theorem dilate_euclidean_monotone (m : Gray) (r1 r2 : ℚ) (hr1 : 0 ≤ r1)
    (hr12 : r1 ≤ r2) (x y : Nat) (hx : x < m.w) (hy : y < m.h)
    (h255 : (dilate_euclidean m r1).at x y = 255) :
    (dilate_euclidean m r2).at x y = 255 := by
  rw [dilate_euclidean, at_grayOfFn _ _ _ hx hy] at h255 ⊢
  cases hd : euclidean_squared_distance_transform m x y with
  | none => rw [hd] at h255; simp at h255
  | some d2 =>
    rw [hd] at h255
    dsimp only at h255 ⊢
    by_cases hle : (d2 : ℚ) ≤ r1 * r1
    · have hrr : r1 * r1 ≤ r2 * r2 := by nlinarith
      rw [if_pos (le_trans hle hrr)]
    · rw [if_neg hle] at h255
      simp at h255

/-- Witness for C6 at a 1×1 all-white image with radii 0 ≤ 1. -/
theorem dilate_euclidean_monotone_witness :
    (0 : ℚ) ≤ 0 ∧ (0 : ℚ) ≤ 1 ∧
    (dilate_euclidean ⟨1, 1, [255]⟩ 1).at 0 0 = 255 := by
  have hdist : euclidean_squared_distance_transform ⟨1, 1, [255]⟩ 0 0 = some 0 := by
    decide
  have h255 : (dilate_euclidean ⟨1, 1, [255]⟩ 0).at 0 0 = 255 := by
    rw [dilate_euclidean, at_grayOfFn _ _ _ (by decide) (by decide), hdist]
    norm_num
  exact ⟨le_refl 0, by norm_num,
    dilate_euclidean_monotone ⟨1, 1, [255]⟩ 0 1 (le_refl 0) (by norm_num)
      0 0 (by decide) (by decide) h255⟩

/-- C10: `dilate_euclidean` is total over arbitrary grayscale input: it
preserves dimensions, its output is binary, and since every non-zero input
pixel is a foreground pixel at distance 0 from itself, every non-zero input
pixel is 255 in the output for any radius `r ≥ 0`. -/
theorem dilate_euclidean_total_spec (m : Gray) (r : ℚ) (hr : 0 ≤ r) :
    (dilate_euclidean m r).w = m.w ∧ (dilate_euclidean m r).h = m.h ∧
    (∀ x, x < m.w → ∀ y, y < m.h →
      (dilate_euclidean m r).at x y = 0 ∨ (dilate_euclidean m r).at x y = 255) ∧
    (∀ x, x < m.w → ∀ y, y < m.h → 0 < m.at x y →
      (dilate_euclidean m r).at x y = 255) := by
  refine ⟨rfl, rfl, fun x hx y hy => ?_, fun x hx y hy hpos => ?_⟩
  · rw [dilate_euclidean, at_grayOfFn _ _ _ hx hy]
    cases euclidean_squared_distance_transform m x y with
    | none => exact Or.inl rfl
    | some d2 =>
      dsimp only
      split
      · exact Or.inr rfl
      · exact Or.inl rfl
  · rw [dilate_euclidean, at_grayOfFn _ _ _ hx hy]
    have hmem : sqDist (x, y) (x, y) ∈ (onCells m).map (sqDist (x, y)) :=
      List.mem_map_of_mem _ (mem_onCells_self hx hy hpos)
    have hself : sqDist (x, y) (x, y) = 0 := by simp [sqDist]
    rw [hself] at hmem
    obtain ⟨d, hd, hd0⟩ := minOfList_exists_le hmem
    rw [euclidean_squared_distance_transform, hd]
    have hdz : d = 0 := Nat.le_zero.mp hd0
    subst hdz
    dsimp only
    rw [if_pos (by positivity : ((0 : Nat) : ℚ) ≤ r * r)]

/-- Witness for C10 at a 1×1 image with (non-binary) pixel value 7, radius 0. -/
theorem dilate_euclidean_total_spec_witness :
    (0 : ℚ) ≤ 0 ∧ (dilate_euclidean ⟨1, 1, [7]⟩ 0).at 0 0 = 255 :=
  ⟨le_refl 0,
    (dilate_euclidean_total_spec ⟨1, 1, [7]⟩ 0 (le_refl 0)).2.2.2
      0 (by decide) 0 (by decide) (by decide)⟩

/-! ### Rounding lemmas shared by C7 and C8 -/

theorem rustRound_of_nonneg {q : ℚ} (hq : 0 ≤ q) :
    rustRound q = Int.floor (q + 1 / 2) := by
  rw [rustRound, if_neg (not_lt.mpr hq)]

theorem rustRound_natCast (n : Nat) : rustRound (n : ℚ) = (n : Int) := by
  rw [rustRound_of_nonneg (Nat.cast_nonneg n)]
  refine Int.floor_eq_iff.mpr ⟨by push_cast; linarith, by push_cast; linarith⟩

theorem clampToByte_natCast {n : Nat} (h : n ≤ 255) :
    clampToByte ((n : Nat) : Int) = n := by
  rw [clampToByte, max_eq_right (Int.natCast_nonneg n),
    min_eq_right (by exact_mod_cast h)]
  simp

theorem floor_half_add_255 : Int.floor ((255 : ℚ) + 1 / 2) = 255 :=
  Int.floor_eq_iff.mpr ⟨by norm_num, by norm_num⟩

/-- The code's round-then-clamp equals the spec's clamp-then-round on
nonnegative rationals. -/
theorem clamp_round_eq_round_clamp {q : ℚ} (hq : 0 ≤ q) :
    clampToByte (rustRound q) = (rustRound (min 255 (max 0 q))).toNat := by
  rw [max_eq_right hq]
  by_cases h255 : q ≤ 255
  · rw [min_eq_right h255, rustRound_of_nonneg hq, clampToByte]
    have h0 : 0 ≤ Int.floor (q + 1 / 2) := Int.floor_nonneg.mpr (by linarith)
    have hle : Int.floor (q + 1 / 2) ≤ 255 := by
      have := Int.floor_le_floor (α := ℚ)
        (show q + 1 / 2 ≤ (255 : ℚ) + 1 / 2 by linarith)
      rwa [floor_half_add_255] at this
    rw [max_eq_right h0, min_eq_right hle]
  · push_neg at h255
    rw [min_eq_left (le_of_lt h255),
      rustRound_of_nonneg (show (0 : ℚ) ≤ 255 by norm_num),
      rustRound_of_nonneg hq, clampToByte, floor_half_add_255]
    have hge : (255 : Int) ≤ Int.floor (q + 1 / 2) :=
      Int.le_floor.mpr (by push_cast; linarith)
    rw [max_eq_right (by linarith), min_eq_left hge]

/-! ### C7: create_rgba_layer_from_mask -/

theorem resolve_mask_alpha_eq_spec (v : Nat) (mode : MaskAlphaMode) :
    resolve_mask_alpha v mode = resolve_mask_alpha_spec v mode := by
  cases mode with
  | useMask => rfl
  | solid a => rfl
  | scale s =>
    rw [resolve_mask_alpha, resolve_mask_alpha_spec]
    exact clamp_round_eq_round_clamp
      (mul_nonneg (Nat.cast_nonneg v) (le_max_right s 0))

/-- C7: the output of `create_rgba_layer_from_mask` has the mask's
dimensions; `resolve_mask_alpha` agrees with the spec's formula
(`UseMask` passes the value through, `Scale` is
`round(clamp(v * max(f,0), 0, 255))`, `Solid(a)` is `a` on non-zero values);
and at every pixel the RGB channels are the fill color unconditionally while
the alpha is `resolve(mask_value, mode) * fill.color.a / 255` with integer
(floor) division. -/
theorem create_rgba_layer_from_mask_spec (mask : Gray) (fill : MaskFill) :
    (create_rgba_layer_from_mask mask fill).w = mask.w ∧
    (create_rgba_layer_from_mask mask fill).h = mask.h ∧
    (∀ v mode, resolve_mask_alpha v mode = resolve_mask_alpha_spec v mode) ∧
    ∀ x, x < mask.w → ∀ y, y < mask.h →
      (create_rgba_layer_from_mask mask fill).px x y =
        ⟨fill.color.r, fill.color.g, fill.color.b,
          resolve_mask_alpha_spec (mask.at x y) fill.alpha_mode
            * fill.color.a / 255⟩ := by
  refine ⟨rfl, rfl, resolve_mask_alpha_eq_spec, fun x hx y hy => ?_⟩
  rw [create_rgba_layer_from_mask, px_rgbaOfFn _ _ _ hx hy]
  rw [resolve_mask_alpha_eq_spec]

/-- Witness for C7: a 1×1 mask of value 100 with an opaque `(1,2,3)` fill in
`UseMask` mode yields the pixel `(1,2,3,100)`. -/
theorem create_rgba_layer_from_mask_spec_witness :
    (0 : Nat) < 1 ∧
    (create_rgba_layer_from_mask ⟨1, 1, [100]⟩
      ⟨⟨1, 2, 3, 255⟩, .useMask⟩).px 0 0 = ⟨1, 2, 3, 100⟩ := by
  have h := (create_rgba_layer_from_mask_spec ⟨1, 1, [100]⟩
    ⟨⟨1, 2, 3, 255⟩, .useMask⟩).2.2.2 0 (by decide) 0 (by decide)
  exact ⟨Nat.one_pos, by rw [h]; decide⟩

/-! ### C8: alpha_composite identity laws -/

theorem overPx_transparent {bg fg : Px} (hfa : fg.a = 0) (hba : 0 < bg.a)
    (hwf : bg.wf) : overPx bg fg = bg := by
  obtain ⟨br, bgr, bb, ba⟩ := bg
  obtain ⟨fr, fgr, fb, fa⟩ := fg
  obtain ⟨h1, h2, h3, h4⟩ := hwf
  simp only at hfa h1 h2 h3 h4 hba
  subst hfa
  rw [overPx]
  dsimp only
  simp only [Nat.cast_zero, zero_div, mul_zero, zero_mul, sub_zero, mul_one,
    zero_add, add_zero]
  have hbaq : (0 : ℚ) < (ba : ℚ) / 255 :=
    div_pos (by exact_mod_cast hba) (by norm_num)
  have hch : ∀ bc : Nat, bc ≤ 255 →
      (if (0 : ℚ) < (ba : ℚ) / 255 then
        clampToByte (rustRound ((bc : ℚ) * ((ba : ℚ) / 255 / ((ba : ℚ) / 255))))
      else 0) = bc := by
    intro bc hbc
    rw [if_pos hbaq, div_self (ne_of_gt hbaq), mul_one, rustRound_natCast,
      clampToByte_natCast hbc]
  have hal : (ba : ℚ) / 255 * 255 = (ba : ℚ) := by field_simp
  rw [hch br h1, hch bgr h2, hch bb h3, hal, rustRound_natCast,
    clampToByte_natCast h4]

theorem overPx_opaque {bg fg : Px} (hfa : fg.a = 255) (hwf : fg.wf) :
    overPx bg fg = ⟨fg.r, fg.g, fg.b, 255⟩ := by
  obtain ⟨br, bgr, bb, ba⟩ := bg
  obtain ⟨fr, fgr, fb, fa⟩ := fg
  obtain ⟨h1, h2, h3, h4⟩ := hwf
  simp only at hfa h1 h2 h3 h4
  subst hfa
  rw [overPx]
  dsimp only
  have hfga : ((255 : Nat) : ℚ) / 255 = 1 := by norm_num
  rw [hfga]
  simp only [sub_self, mul_zero, add_zero, zero_div, zero_mul, div_one,
    mul_one, one_mul]
  have hch : ∀ fc : Nat, fc ≤ 255 →
      (if (0 : ℚ) < 1 then clampToByte (rustRound ((fc : ℚ))) else 0) = fc := by
    intro fc hfc
    rw [if_pos (by norm_num : (0 : ℚ) < 1), rustRound_natCast,
      clampToByte_natCast hfc]
  rw [hch fr h1, hch fgr h2, hch fb h3,
    show (255 : ℚ) = ((255 : Nat) : ℚ) by norm_num,
    rustRound_natCast, clampToByte_natCast (le_refl 255)]

/-- C8: identity laws of `alpha_composite` for images of equal dimensions
with `u8`-valued pixels: a fully transparent top layer (with positive bottom
alpha) leaves the bottom image unchanged pixel for pixel, and a fully opaque
top layer yields the top RGB channels with alpha 255 at every pixel. -/
theorem alpha_composite_identity_laws (bottom top : Rgba)
    (_hw : top.w = bottom.w) (_hh : top.h = bottom.h)
    (hbwf : ∀ x, x < bottom.w → ∀ y, y < bottom.h → (bottom.px x y).wf)
    (htwf : ∀ x, x < bottom.w → ∀ y, y < bottom.h → (top.px x y).wf) :
    ((∀ x, x < bottom.w → ∀ y, y < bottom.h →
        (top.px x y).a = 0 ∧ 0 < (bottom.px x y).a) →
      ∀ x, x < bottom.w → ∀ y, y < bottom.h →
        (alpha_composite bottom top).px x y = bottom.px x y) ∧
    ((∀ x, x < bottom.w → ∀ y, y < bottom.h → (top.px x y).a = 255) →
      ∀ x, x < bottom.w → ∀ y, y < bottom.h →
        ((alpha_composite bottom top).px x y).r = (top.px x y).r ∧
        ((alpha_composite bottom top).px x y).g = (top.px x y).g ∧
        ((alpha_composite bottom top).px x y).b = (top.px x y).b ∧
        ((alpha_composite bottom top).px x y).a = 255) := by
  constructor
  · intro hcond x hx y hy
    rw [alpha_composite, px_rgbaOfFn _ _ _ hx hy]
    exact overPx_transparent (hcond x hx y hy).1 (hcond x hx y hy).2
      (hbwf x hx y hy)
  · intro hcond x hx y hy
    rw [alpha_composite, px_rgbaOfFn _ _ _ hx hy,
      overPx_opaque (hcond x hx y hy) (htwf x hx y hy)]
    exact ⟨rfl, rfl, rfl, rfl⟩

/-- Witness for C8 with 1×1 images: transparent green over opaque-ish red
returns the bottom pixel; opaque blue over it wins with alpha 255. -/
theorem alpha_composite_identity_laws_witness :
    (alpha_composite ⟨1, 1, [⟨200, 10, 20, 90⟩]⟩
        ⟨1, 1, [⟨0, 255, 0, 0⟩]⟩).px 0 0 = ⟨200, 10, 20, 90⟩ ∧
    ((alpha_composite ⟨1, 1, [⟨200, 10, 20, 90⟩]⟩
        ⟨1, 1, [⟨5, 6, 7, 255⟩]⟩).px 0 0).r = 5 ∧
    ((alpha_composite ⟨1, 1, [⟨200, 10, 20, 90⟩]⟩
        ⟨1, 1, [⟨5, 6, 7, 255⟩]⟩).px 0 0).a = 255 := by
  have h1 := (alpha_composite_identity_laws ⟨1, 1, [⟨200, 10, 20, 90⟩]⟩
    ⟨1, 1, [⟨0, 255, 0, 0⟩]⟩ rfl rfl
    (by decide) (by decide)).1 (by decide) 0 (by decide) 0 (by decide)
  have h2 := (alpha_composite_identity_laws ⟨1, 1, [⟨200, 10, 20, 90⟩]⟩
    ⟨1, 1, [⟨5, 6, 7, 255⟩]⟩ rfl rfl
    (by decide) (by decide)).2 (by decide) 0 (by decide) 0 (by decide)
  refine ⟨by rw [h1]; decide, by rw [h2.1]; decide, by rw [h2.2.2.2]⟩

/-! ### C1: processed() override semantics -/

/-- C1 (counterexample): explicit override options do not take exclusive
priority over the queued operations. With one queued `Threshold 0` operation
on a 1×1 matte of value 1 and an all-disabled override record (which derives
no operations), `processed` still applies the queued threshold: the result
pixel is 255, whereas applying only the override-derived operations would
leave the pixel at 1. -/
theorem processed_override_not_exclusive_cex :
    ((⟨⟨0, 0, []⟩, ⟨1, 1, [1]⟩, .default, [.threshold 0]⟩ :
        MatteHandle).processed (fun _ g => g)
          (some MaskProcessingOptions.default)).mask
      ≠ apply_operations (fun _ g => g) ⟨1, 1, [1]⟩
          (operations_from_options MaskProcessingOptions.default) := by
  decide

/-- C1 (amended): for both handle types, `processed` with explicit override
options applies the queued operations followed by the override-derived
operations (the stored defaults are bypassed but the queue is not); with no
override options it applies the default-derived operations when the queue is
empty, and exactly the queued operations otherwise. -/
theorem processed_selects_queue_and_override
    (gaussian_blur_f32 : ℚ → Gray → Gray) (rgbi : Rgb) (raw : Gray)
    (defaults : MaskProcessingOptions) (queued : List MaskOperation)
    (custom : MaskProcessingOptions) :
    ((⟨rgbi, raw, defaults, queued⟩ : MatteHandle).processed
        gaussian_blur_f32 (some custom)).mask
      = apply_operations gaussian_blur_f32 raw
          (queued ++ operations_from_options custom) ∧
    ((⟨rgbi, raw, defaults, []⟩ : MatteHandle).processed
        gaussian_blur_f32 none).mask
      = apply_operations gaussian_blur_f32 raw
          (operations_from_options defaults) ∧
    (queued ≠ [] →
      ((⟨rgbi, raw, defaults, queued⟩ : MatteHandle).processed
          gaussian_blur_f32 none).mask
        = apply_operations gaussian_blur_f32 raw queued) ∧
    ((⟨rgbi, raw, defaults, queued⟩ : MaskHandle).processed
        gaussian_blur_f32 (some custom)).mask
      = apply_operations gaussian_blur_f32 raw
          (queued ++ operations_from_options custom) ∧
    ((⟨rgbi, raw, defaults, []⟩ : MaskHandle).processed
        gaussian_blur_f32 none).mask
      = apply_operations gaussian_blur_f32 raw
          (operations_from_options defaults) ∧
    (queued ≠ [] →
      ((⟨rgbi, raw, defaults, queued⟩ : MaskHandle).processed
          gaussian_blur_f32 none).mask
        = apply_operations gaussian_blur_f32 raw queued) := by
  refine ⟨rfl, rfl, ?_, rfl, rfl, ?_⟩ <;> intro hne <;>
    cases queued with
    | nil => exact absurd rfl hne
    | cons op rest => rfl

/-- Witness for C1 (amended) on a 1×1 matte with one queued threshold. -/
theorem processed_selects_queue_and_override_witness :
    ([MaskOperation.threshold 0] ≠ ([] : List MaskOperation)) ∧
    ((⟨⟨0, 0, []⟩, ⟨1, 1, [5]⟩, .default, [.threshold 0]⟩ :
        MatteHandle).processed (fun _ g => g) none).mask
      = apply_operations (fun _ g => g) ⟨1, 1, [5]⟩
          [MaskOperation.threshold 0] :=
  ⟨by decide,
    (processed_selects_queue_and_override (fun _ g => g) ⟨0, 0, []⟩
      ⟨1, 1, [5]⟩ MaskProcessingOptions.default [.threshold 0]
      MaskProcessingOptions.default).2.2.1 (by decide)⟩

/-! ### C4, C5: flood-fill correctness

The plan: prove that the worklist loop `bfsAux`, run with enough fuel,
computes exactly the set of raw indices of border-reachable dark pixels
(`Reach`), then characterise `fill_mask_holes` pixelwise and derive
idempotence. -/

theorem idOf_lt_of_valid {w h : Nat} {c : Nat × Nat} (hc : validc w h c) :
    idOf w c < w * h := by
  obtain ⟨h1, h2⟩ : c.1 < w ∧ c.2 < h := hc
  exact index_lt_of_lt h1 h2

theorem idOf_inj_of_valid {w h : Nat} {c d : Nat × Nat} (hc : validc w h c)
    (hd : validc w h d) (hid : idOf w c = idOf w d) : c = d := by
  obtain ⟨c1, c2⟩ := c
  obtain ⟨d1, d2⟩ := d
  obtain ⟨hc1, _⟩ : c1 < w ∧ c2 < h := hc
  obtain ⟨hd1, _⟩ : d1 < w ∧ d2 < h := hd
  have hw : 0 < w := by omega
  have e1 : (c2 * w + c1) % w = c1 := by
    rw [Nat.add_comm, Nat.add_mul_mod_self_right, Nat.mod_eq_of_lt hc1]
  have e2 : (d2 * w + d1) % w = d1 := by
    rw [Nat.add_comm, Nat.add_mul_mod_self_right, Nat.mod_eq_of_lt hd1]
  have hid' : c2 * w + c1 = d2 * w + d1 := hid
  have hx : c1 = d1 := by rw [← e1, ← e2, hid']
  have hy : c2 = d2 := by
    have hmul : c2 * w = d2 * w := by omega
    exact Nat.eq_of_mul_eq_mul_right hw hmul
  rw [hx, hy]

theorem reach_valid {w h : Nat} {dark : Nat → Nat → Bool} {c : Nat × Nat}
    (hr : Reach w h dark c) : validc w h c := by
  cases hr with
  | border c hv _ _ => exact hv
  | step c n _ _ hv _ => exact hv

theorem reach_dark {w h : Nat} {dark : Nat → Nat → Bool} {c : Nat × Nat}
    (hr : Reach w h dark c) : dark c.1 c.2 = true := by
  cases hr with
  | border _ _ _ hd => exact hd
  | step _ _ _ _ _ hd => exact hd

theorem mem_pushIf {p : Prop} [Decidable p] {q : List (Nat × Nat)}
    {c x : Nat × Nat} : x ∈ pushIf p q c ↔ x ∈ q ∨ (p ∧ x = c) := by
  rw [pushIf]
  split <;> rename_i hp <;> simp [hp]

theorem subset_pushIf {p : Prop} [Decidable p] {q : List (Nat × Nat)}
    {c x : Nat × Nat} (hx : x ∈ q) : x ∈ pushIf p q c :=
  mem_pushIf.mpr (Or.inl hx)

theorem mem_pushIf_self {p : Prop} [Decidable p] {q : List (Nat × Nat)}
    {c : Nat × Nat} (hp : p) : c ∈ pushIf p q c :=
  mem_pushIf.mpr (Or.inr ⟨hp, rfl⟩)

theorem length_pushIf (p : Prop) [Decidable p] (q : List (Nat × Nat))
    (c : Nat × Nat) : (pushIf p q c).length ≤ q.length + 1 := by
  rw [pushIf]
  split <;> simp

theorem length_nbrQueue (w h : Nat) (dark : Nat → Nat → Bool) (c : Nat × Nat)
    (vis : List Nat) (rest : List (Nat × Nat)) :
    (nbrQueue w h dark c vis rest).length ≤ rest.length + 4 := by
  rw [nbrQueue]
  calc (pushIf _ (pushIf _ (pushIf _ (pushIf _ rest _) _) _) _).length
      ≤ (pushIf _ (pushIf _ (pushIf _ rest _) _) _).length + 1 :=
        length_pushIf _ _ _
    _ ≤ ((pushIf _ (pushIf _ rest _) _).length + 1) + 1 :=
        Nat.add_le_add_right (length_pushIf _ _ _) 1
    _ ≤ (((pushIf _ rest _).length + 1) + 1) + 1 :=
        Nat.add_le_add_right (Nat.add_le_add_right (length_pushIf _ _ _) 1) 1
    _ ≤ (((rest.length + 1) + 1) + 1) + 1 :=
        Nat.add_le_add_right (Nat.add_le_add_right
          (Nat.add_le_add_right (length_pushIf _ _ _) 1) 1) 1
    _ = rest.length + 4 := by omega

theorem subset_nbrQueue {w h : Nat} {dark : Nat → Nat → Bool} {c : Nat × Nat}
    {vis : List Nat} {rest : List (Nat × Nat)} {x : Nat × Nat} (hx : x ∈ rest) :
    x ∈ nbrQueue w h dark c vis rest := by
  rw [nbrQueue]
  exact subset_pushIf (subset_pushIf (subset_pushIf (subset_pushIf hx)))

theorem mem_nbrQueue {w h : Nat} {dark : Nat → Nat → Bool} {c : Nat × Nat}
    {vis : List Nat} {rest : List (Nat × Nat)} {x : Nat × Nat}
    (hc : validc w h c) (hx : x ∈ nbrQueue w h dark c vis rest) :
    x ∈ rest ∨
      (adjc c x ∧ validc w h x ∧ dark x.1 x.2 = true ∧ idOf w x ∉ vis) := by
  obtain ⟨hc1, hc2⟩ : c.1 < w ∧ c.2 < h := hc
  rw [nbrQueue] at hx
  rcases mem_pushIf.mp hx with hx | ⟨⟨hb, hv, hd⟩, rfl⟩
  rotate_left
  · exact Or.inr ⟨Or.inr (Or.inr (Or.inr ⟨rfl, rfl⟩)), ⟨hc1, hb⟩, hd, hv⟩
  rcases mem_pushIf.mp hx with hx | ⟨⟨hb, hv, hd⟩, rfl⟩
  rotate_left
  · exact Or.inr ⟨Or.inr (Or.inr (Or.inl ⟨by omega, rfl⟩)),
      ⟨hc1, by omega⟩, hd, hv⟩
  rcases mem_pushIf.mp hx with hx | ⟨⟨hb, hv, hd⟩, rfl⟩
  rotate_left
  · exact Or.inr ⟨Or.inr (Or.inl ⟨rfl, rfl⟩), ⟨hb, hc2⟩, hd, hv⟩
  rcases mem_pushIf.mp hx with hx | ⟨⟨hb, hv, hd⟩, rfl⟩
  · exact Or.inl hx
  · exact Or.inr ⟨Or.inl ⟨by omega, rfl⟩, ⟨by omega, hc2⟩, hd, hv⟩

theorem nbrQueue_covers {w h : Nat} {dark : Nat → Nat → Bool} {c : Nat × Nat}
    {vis : List Nat} {rest : List (Nat × Nat)} {n : Nat × Nat}
    (hadj : adjc c n) (hnv : validc w h n) (hnd : dark n.1 n.2 = true)
    (hout : idOf w n ∉ vis) : n ∈ nbrQueue w h dark c vis rest := by
  obtain ⟨c1, c2⟩ := c
  obtain ⟨n1, n2⟩ := n
  obtain ⟨hn1, hn2⟩ : n1 < w ∧ n2 < h := hnv
  rw [nbrQueue]
  rcases hadj with ⟨ha, hb⟩ | ⟨ha, hb⟩ | ⟨ha, hb⟩ | ⟨ha, hb⟩ <;>
    simp only at ha hb
  · -- left neighbour: n1 + 1 = c1, n2 = c2
    have hn : (n1, n2) = ((c1, c2).1 - 1, (c1, c2).2) := by
      simp only [Prod.mk.injEq]
      omega
    rw [hn] at hout hnd ⊢
    exact subset_pushIf (subset_pushIf (subset_pushIf
      (mem_pushIf_self ⟨by omega, hout, hnd⟩)))
  · -- right neighbour: n1 = c1 + 1, n2 = c2
    have hn : (n1, n2) = ((c1, c2).1 + 1, (c1, c2).2) := by
      simp only [Prod.mk.injEq]
      omega
    rw [hn] at hout hnd ⊢
    exact subset_pushIf (subset_pushIf
      (mem_pushIf_self ⟨by omega, hout, hnd⟩))
  · -- up neighbour: n2 + 1 = c2, n1 = c1
    have hn : (n1, n2) = ((c1, c2).1, (c1, c2).2 - 1) := by
      simp only [Prod.mk.injEq]
      omega
    rw [hn] at hout hnd ⊢
    exact subset_pushIf (mem_pushIf_self ⟨by omega, hout, hnd⟩)
  · -- down neighbour: n2 = c2 + 1, n1 = c1
    have hn : (n1, n2) = ((c1, c2).1, (c1, c2).2 + 1) := by
      simp only [Prod.mk.injEq]
      omega
    rw [hn] at hout hnd ⊢
    exact mem_pushIf_self ⟨by omega, hout, hnd⟩

theorem card_unseen_cons {n i : Nat} {visited : List Nat} (hin : i < n)
    (hni : i ∉ visited) :
    (unseen n (i :: visited)).card + 1 = (unseen n visited).card := by
  have hmem : i ∈ unseen n visited := by
    simp [unseen, hin, hni]
  have herase : unseen n (i :: visited) = (unseen n visited).erase i := by
    ext j
    simp only [unseen, Finset.mem_filter, Finset.mem_range, Finset.mem_erase,
      List.mem_cons, not_or]
    tauto
  rw [herase, Finset.card_erase_of_mem hmem]
  have hpos : 0 < (unseen n visited).card := Finset.card_pos.mpr ⟨i, hmem⟩
  omega

theorem seeds_sound {w h : Nat} {dark : Nat → Nat → Bool} (hw : 0 < w)
    (hh : 0 < h) {c : Nat × Nat} (hc : c ∈ seeds w h dark) :
    validc w h c ∧ dark c.1 c.2 = true ∧
      (c.1 = 0 ∨ c.1 = w - 1 ∨ c.2 = 0 ∨ c.2 = h - 1) := by
  rw [seeds] at hc
  rcases List.mem_append.mp hc with hc | hc
  · obtain ⟨x, hx, hcx⟩ := List.mem_flatMap.mp hc
    rw [List.mem_range] at hx
    rcases List.mem_append.mp hcx with hcx | hcx
    · split at hcx <;> rename_i hdk
      · rw [List.mem_singleton] at hcx
        subst hcx
        exact ⟨⟨hx, hh⟩, hdk, Or.inr (Or.inr (Or.inl rfl))⟩
      · cases hcx
    · split at hcx <;> rename_i hdk
      · rw [List.mem_singleton] at hcx
        subst hcx
        exact ⟨⟨hx, by omega⟩, hdk, Or.inr (Or.inr (Or.inr rfl))⟩
      · cases hcx
  · obtain ⟨y, hy, hcy⟩ := List.mem_flatMap.mp hc
    rw [List.mem_range] at hy
    rcases List.mem_append.mp hcy with hcy | hcy
    · split at hcy <;> rename_i hdk
      · rw [List.mem_singleton] at hcy
        subst hcy
        exact ⟨⟨hw, hy⟩, hdk, Or.inl rfl⟩
      · cases hcy
    · split at hcy <;> rename_i hdk
      · rw [List.mem_singleton] at hcy
        subst hcy
        exact ⟨⟨by omega, hy⟩, hdk, Or.inr (Or.inl rfl)⟩
      · cases hcy

theorem seeds_complete {w h : Nat} {dark : Nat → Nat → Bool} {c : Nat × Nat}
    (hval : validc w h c) (hdark : dark c.1 c.2 = true)
    (hborder : c.1 = 0 ∨ c.1 = w - 1 ∨ c.2 = 0 ∨ c.2 = h - 1) :
    c ∈ seeds w h dark := by
  obtain ⟨c1, c2⟩ := c
  obtain ⟨h1, h2⟩ : c1 < w ∧ c2 < h := hval
  simp only at hdark hborder
  rw [seeds, List.mem_append]
  rcases hborder with hb | hb | hb | hb
  · subst hb
    refine Or.inr (List.mem_flatMap.mpr ⟨c2, List.mem_range.mpr h2, ?_⟩)
    exact List.mem_append.mpr (Or.inl (by rw [if_pos hdark]; exact List.mem_singleton.mpr rfl))
  · subst hb
    refine Or.inr (List.mem_flatMap.mpr ⟨c2, List.mem_range.mpr h2, ?_⟩)
    exact List.mem_append.mpr (Or.inr (by rw [if_pos hdark]; exact List.mem_singleton.mpr rfl))
  · subst hb
    refine Or.inl (List.mem_flatMap.mpr ⟨c1, List.mem_range.mpr h1, ?_⟩)
    exact List.mem_append.mpr (Or.inl (by rw [if_pos hdark]; exact List.mem_singleton.mpr rfl))
  · subst hb
    refine Or.inl (List.mem_flatMap.mpr ⟨c1, List.mem_range.mpr h1, ?_⟩)
    exact List.mem_append.mpr (Or.inr (by rw [if_pos hdark]; exact List.mem_singleton.mpr rfl))

/-- Invariant-based correctness of the worklist loop. Given enough fuel and
a queue of valid, dark, reachable cells, a visited list of ids of valid
reachable cells that is closed under dark adjacency modulo the queue, the
loop's result (1) extends the visited list, (2) absorbs every queued cell,
(3) contains only ids of valid reachable cells, and (4) is closed under dark
adjacency outright. -/
theorem bfsAux_spec (w h : Nat) (dark : Nat → Nat → Bool) :
    ∀ (fuel : Nat) (queue : List (Nat × Nat)) (visited : List Nat),
      bfsMeasure (w * h) queue visited ≤ fuel →
      (∀ c ∈ queue, validc w h c ∧ dark c.1 c.2 = true ∧ Reach w h dark c) →
      (∀ i ∈ visited, ∃ c, validc w h c ∧ idOf w c = i ∧ Reach w h dark c) →
      (∀ c, validc w h c → idOf w c ∈ visited →
        ∀ n, adjc c n → validc w h n → dark n.1 n.2 = true →
          idOf w n ∈ visited ∨ n ∈ queue) →
      (∀ i ∈ visited, i ∈ bfsAux w h dark fuel queue visited) ∧
      (∀ c ∈ queue, idOf w c ∈ bfsAux w h dark fuel queue visited) ∧
      (∀ i ∈ bfsAux w h dark fuel queue visited,
        ∃ c, validc w h c ∧ idOf w c = i ∧ Reach w h dark c) ∧
      (∀ c, validc w h c → idOf w c ∈ bfsAux w h dark fuel queue visited →
        ∀ n, adjc c n → validc w h n → dark n.1 n.2 = true →
          idOf w n ∈ bfsAux w h dark fuel queue visited) := by
  intro fuel
  induction fuel with
  | zero =>
    intro queue visited hmu hqv hvs hcl
    have hq : queue = [] := by
      rw [bfsMeasure] at hmu
      have hlen : queue.length = 0 := by omega
      exact List.length_eq_zero.mp hlen
    subst hq
    refine ⟨fun i hi => hi, fun c hc => absurd hc (List.not_mem_nil c), hvs, ?_⟩
    intro c hcv hcm n hadj hnv hnd
    rcases hcl c hcv hcm n hadj hnv hnd with hin | hin
    · exact hin
    · exact absurd hin (List.not_mem_nil n)
  | succ fuel ih =>
    intro queue visited hmu hqv hvs hcl
    cases queue with
    | nil =>
      refine ⟨fun i hi => hi, fun c hc => absurd hc (List.not_mem_nil c), hvs, ?_⟩
      intro c hcv hcm n hadj hnv hnd
      rcases hcl c hcv hcm n hadj hnv hnd with hin | hin
      · exact hin
      · exact absurd hin (List.not_mem_nil n)
    | cons c rest =>
      by_cases hmem : idOf w c ∈ visited
      · have hstep : bfsAux w h dark (fuel + 1) (c :: rest) visited =
            bfsAux w h dark fuel rest visited := by
          simp only [bfsAux]
          rw [if_pos hmem]
        have hmu2 : bfsMeasure (w * h) rest visited ≤ fuel := by
          rw [bfsMeasure] at hmu ⊢
          simp only [List.length_cons] at hmu
          omega
        have hqv2 : ∀ c' ∈ rest, validc w h c' ∧ dark c'.1 c'.2 = true ∧
            Reach w h dark c' :=
          fun c' hc' => hqv c' (List.mem_cons_of_mem c hc')
        have hcl2 : ∀ a, validc w h a → idOf w a ∈ visited →
            ∀ n, adjc a n → validc w h n → dark n.1 n.2 = true →
              idOf w n ∈ visited ∨ n ∈ rest := by
          intro a hav ham n hadj hnv hnd
          rcases hcl a hav ham n hadj hnv hnd with hin | hin
          · exact Or.inl hin
          · rcases List.mem_cons.mp hin with rfl | hin
            · exact Or.inl hmem
            · exact Or.inr hin
        obtain ⟨g1, g2, g3, g4⟩ := ih rest visited hmu2 hqv2 hvs hcl2
        rw [hstep]
        refine ⟨g1, ?_, g3, g4⟩
        intro c' hc'
        rcases List.mem_cons.mp hc' with rfl | hc'
        · exact g1 _ hmem
        · exact g2 c' hc'
      · obtain ⟨hcval, hcdark, hcreach⟩ := hqv c (List.mem_cons_self c rest)
        have hstep : bfsAux w h dark (fuel + 1) (c :: rest) visited =
            bfsAux w h dark fuel
              (nbrQueue w h dark c (idOf w c :: visited) rest)
              (idOf w c :: visited) := by
          simp only [bfsAux]
          rw [if_neg hmem]
        have hidlt : idOf w c < w * h := idOf_lt_of_valid hcval
        have hcard := card_unseen_cons hidlt hmem
        have hlen := length_nbrQueue w h dark c (idOf w c :: visited) rest
        have hmu2 : bfsMeasure (w * h)
            (nbrQueue w h dark c (idOf w c :: visited) rest)
            (idOf w c :: visited) ≤ fuel := by
          rw [bfsMeasure] at hmu ⊢
          simp only [List.length_cons] at hmu
          omega
        have hqv2 : ∀ c' ∈ nbrQueue w h dark c (idOf w c :: visited) rest,
            validc w h c' ∧ dark c'.1 c'.2 = true ∧ Reach w h dark c' := by
          intro c' hc'
          rcases mem_nbrQueue hcval hc' with hc' | ⟨hadj, hval, hdk, _⟩
          · exact hqv c' (List.mem_cons_of_mem c hc')
          · exact ⟨hval, hdk, Reach.step c c' hcreach hadj hval hdk⟩
        have hvs2 : ∀ i ∈ idOf w c :: visited,
            ∃ d, validc w h d ∧ idOf w d = i ∧ Reach w h dark d := by
          intro i hi
          rcases List.mem_cons.mp hi with rfl | hi
          · exact ⟨c, hcval, rfl, hcreach⟩
          · exact hvs i hi
        have hcl2 : ∀ a, validc w h a → idOf w a ∈ idOf w c :: visited →
            ∀ n, adjc a n → validc w h n → dark n.1 n.2 = true →
              idOf w n ∈ idOf w c :: visited ∨
                n ∈ nbrQueue w h dark c (idOf w c :: visited) rest := by
          intro a hav ham n hadj hnv hnd
          rcases List.mem_cons.mp ham with heq | ham
          · have hac : a = c := idOf_inj_of_valid hav hcval heq
            subst hac
            by_cases hnvis : idOf w n ∈ idOf w a :: visited
            · exact Or.inl hnvis
            · exact Or.inr (nbrQueue_covers hadj hnv hnd hnvis)
          · rcases hcl a hav ham n hadj hnv hnd with hin | hin
            · exact Or.inl (List.mem_cons_of_mem _ hin)
            · rcases List.mem_cons.mp hin with rfl | hin
              · exact Or.inl (List.mem_cons_self _ _)
              · exact Or.inr (subset_nbrQueue hin)
        obtain ⟨g1, g2, g3, g4⟩ := ih _ _ hmu2 hqv2 hvs2 hcl2
        rw [hstep]
        refine ⟨?_, ?_, g3, g4⟩
        · intro i hi
          exact g1 i (List.mem_cons_of_mem _ hi)
        · intro c' hc'
          rcases List.mem_cons.mp hc' with rfl | hc'
          · exact g1 _ (List.mem_cons_self _ _)
          · exact g2 c' (subset_nbrQueue hc')

/-- The flood fill of `fill_mask_holes` visits exactly (soundness and
completeness) the ids of border-reachable dark pixels. -/
theorem fillVisited_spec (m : Gray) (thr : Nat) (hw : 0 < m.w) (hh : 0 < m.h) :
    (∀ i ∈ fillVisited m thr, ∃ c, validc m.w m.h c ∧ idOf m.w c = i ∧
      Reach m.w m.h (darkb m thr) c) ∧
    (∀ c, Reach m.w m.h (darkb m thr) c → idOf m.w c ∈ fillVisited m thr) := by
  have hmu : bfsMeasure (m.w * m.h) (seeds m.w m.h (darkb m thr)) [] ≤
      fillFuel m thr := by
    rw [bfsMeasure, fillFuel]
    have hun : unseen (m.w * m.h) [] = Finset.range (m.w * m.h) := by
      ext j
      simp [unseen]
    rw [hun, Finset.card_range]
  have hqv : ∀ c ∈ seeds m.w m.h (darkb m thr), validc m.w m.h c ∧
      darkb m thr c.1 c.2 = true ∧ Reach m.w m.h (darkb m thr) c := by
    intro c hc
    obtain ⟨hval, hdk, hborder⟩ := seeds_sound hw hh hc
    exact ⟨hval, hdk, Reach.border c hval hborder hdk⟩
  have hspec := bfsAux_spec m.w m.h (darkb m thr) (fillFuel m thr)
    (seeds m.w m.h (darkb m thr)) [] hmu hqv
    (fun i hi => absurd hi (List.not_mem_nil i))
    (fun c _ hcm => absurd hcm (List.not_mem_nil _))
  refine ⟨hspec.2.2.1, ?_⟩
  intro c hreach
  induction hreach with
  | border c hval hborder hdark =>
    exact hspec.2.1 c (seeds_complete hval hdark hborder)
  | step c n hc hadj hnval hndark ihc =>
    exact hspec.2.2.2 c (reach_valid hc) ihc n hadj hnval hndark

theorem mem_fillVisited_iff (m : Gray) (thr : Nat) (hw : 0 < m.w)
    (hh : 0 < m.h) {x y : Nat} (hx : x < m.w) (hy : y < m.h) :
    (y * m.w + x) ∈ fillVisited m thr ↔
      Reach m.w m.h (darkb m thr) (x, y) := by
  obtain ⟨hsound, hcomplete⟩ := fillVisited_spec m thr hw hh
  constructor
  · intro hmemv
    obtain ⟨c, hcval, hcid, hcreach⟩ := hsound _ hmemv
    have hceq : c = (x, y) :=
      idOf_inj_of_valid hcval ⟨hx, hy⟩ (by rw [hcid]; rfl)
    rwa [hceq] at hcreach
  · intro hreach
    exact hcomplete (x, y) hreach

/-- Pixelwise characterisation of `fill_mask_holes`: a pixel is 255 iff it is
at/above the threshold or is not border-reachable through dark pixels, and 0
iff it is dark and border-reachable. -/
theorem fill_at_eq (m : Gray) (thr : Nat) (hw : 0 < m.w) (hh : 0 < m.h)
    {x y : Nat} (hx : x < m.w) (hy : y < m.h) :
    ((fill_mask_holes m thr).at x y = 255 ↔
      thr ≤ m.at x y ∨ ¬ Reach m.w m.h (darkb m thr) (x, y)) ∧
    ((fill_mask_holes m thr).at x y = 0 ↔
      m.at x y < thr ∧ Reach m.w m.h (darkb m thr) (x, y)) := by
  have hiff := mem_fillVisited_iff m thr hw hh hx hy
  rw [fill_mask_holes, at_grayOfFn _ _ _ hx hy]
  by_cases hcond : thr ≤ m.at x y ∨ (y * m.w + x) ∉ fillVisited m thr
  · rw [if_pos hcond]
    constructor
    · refine ⟨fun _ => ?_, fun _ => rfl⟩
      rcases hcond with hc | hc
      · exact Or.inl hc
      · exact Or.inr (fun hr => hc (hiff.mpr hr))
    · refine ⟨fun hz => absurd hz (by norm_num), fun hzero => ?_⟩
      obtain ⟨hlt, hr⟩ := hzero
      rcases hcond with hc | hc
      · omega
      · exact absurd (hiff.mpr hr) hc
  · rw [if_neg hcond]
    push_neg at hcond
    obtain ⟨hlt, hmemv⟩ := hcond
    constructor
    · refine ⟨fun hz => absurd hz (by norm_num), fun hor => ?_⟩
      rcases hor with hc | hc
      · omega
      · exact absurd (hiff.mp hmemv) hc
    · exact ⟨fun _ => ⟨hlt, hiff.mp hmemv⟩, fun _ => rfl⟩

/-- C4: `fill_mask_holes` preserves dimensions and computes: every pixel
at/above the threshold is 255; every dark pixel that is 4-connected through
dark pixels to a dark border pixel stays 0; and every dark pixel not so
reachable (an enclosed hole) is set to 255. -/
theorem fill_mask_holes_spec (m : Gray) (thr : Nat) (hw : 0 < m.w)
    (hh : 0 < m.h) :
    (fill_mask_holes m thr).w = m.w ∧ (fill_mask_holes m thr).h = m.h ∧
    ∀ x, x < m.w → ∀ y, y < m.h →
      ((fill_mask_holes m thr).at x y = 255 ↔
        thr ≤ m.at x y ∨ ¬ Reach m.w m.h (darkb m thr) (x, y)) ∧
      ((fill_mask_holes m thr).at x y = 0 ↔
        m.at x y < thr ∧ Reach m.w m.h (darkb m thr) (x, y)) :=
  ⟨rfl, rfl, fun x hx y hy => fill_at_eq m thr hw hh hx hy⟩

/-- Witness for C4 on a 3×3 white image with a black centre pixel,
threshold 128 (the centre is an enclosed hole). -/
theorem fill_mask_holes_spec_witness :
    (0 : Nat) < 3 ∧
    ((fill_mask_holes ⟨3, 3, [255, 255, 255, 255, 0, 255, 255, 255, 255]⟩
        128).at 1 1 = 255 ↔
      128 ≤ (⟨3, 3, [255, 255, 255, 255, 0, 255, 255, 255, 255]⟩ : Gray).at 1 1 ∨
        ¬ Reach 3 3
          (darkb ⟨3, 3, [255, 255, 255, 255, 0, 255, 255, 255, 255]⟩ 128)
          (1, 1)) :=
  ⟨by decide,
    ((fill_mask_holes_spec ⟨3, 3, [255, 255, 255, 255, 0, 255, 255, 255, 255]⟩
      128 (by decide) (by decide)).2.2 1 (by decide) 1 (by decide)).1⟩

/-! ### C5: idempotence of FillHoles -/

theorem darkb_eq_true_iff {m : Gray} {thr x y : Nat} :
    darkb m thr x y = true ↔ m.at x y < thr := by
  simp [darkb]

theorem fill_at_binary (m : Gray) (thr : Nat) {x y : Nat} (hx : x < m.w)
    (hy : y < m.h) :
    (fill_mask_holes m thr).at x y = 255 ∨
      (fill_mask_holes m thr).at x y = 0 := by
  rw [fill_mask_holes, at_grayOfFn _ _ _ hx hy]
  split
  · exact Or.inl rfl
  · exact Or.inr rfl

/-- Pixels dark and border-reachable in `m` are still dark and
border-reachable in `fill_mask_holes m thr` (they stay 0, hence dark). -/
theorem reach_fill_of_reach (m : Gray) (thr : Nat) (hw : 0 < m.w)
    (hh : 0 < m.h) :
    ∀ c, Reach m.w m.h (darkb m thr) c →
      Reach m.w m.h (darkb (fill_mask_holes m thr) thr) c := by
  intro c hreach
  induction hreach with
  | border c hval hborder hdark =>
    have hvv : c.1 < m.w ∧ c.2 < m.h := hval
    have hmlt : m.at c.1 c.2 < thr := darkb_eq_true_iff.mp hdark
    have h0 : (fill_mask_holes m thr).at c.1 c.2 = 0 :=
      (fill_at_eq m thr hw hh hvv.1 hvv.2).2.mpr
        ⟨hmlt, Reach.border c hval hborder hdark⟩
    exact Reach.border c hval hborder
      (darkb_eq_true_iff.mpr (by rw [h0]; omega))
  | step c n hc hadj hnval hndark ihc =>
    have hvv : n.1 < m.w ∧ n.2 < m.h := hnval
    have hmlt : m.at n.1 n.2 < thr := darkb_eq_true_iff.mp hndark
    have hreachn : Reach m.w m.h (darkb m thr) n :=
      Reach.step c n hc hadj hnval hndark
    have h0 : (fill_mask_holes m thr).at n.1 n.2 = 0 :=
      (fill_at_eq m thr hw hh hvv.1 hvv.2).2.mpr ⟨hmlt, hreachn⟩
    exact Reach.step c n ihc hadj hnval
      (darkb_eq_true_iff.mpr (by rw [h0]; omega))

/-- C5: `FillHoles` is idempotent: applying it twice with the same (`u8`)
threshold gives the same image as applying it once, pixel for pixel (and the
dimensions agree). -/
theorem fill_mask_holes_idempotent (m : Gray) (thr : Nat) (hw : 0 < m.w)
    (hh : 0 < m.h) (hthr : thr ≤ 255) :
    (fill_mask_holes (fill_mask_holes m thr) thr).w =
      (fill_mask_holes m thr).w ∧
    (fill_mask_holes (fill_mask_holes m thr) thr).h =
      (fill_mask_holes m thr).h ∧
    ∀ x, x < m.w → ∀ y, y < m.h →
      (fill_mask_holes (fill_mask_holes m thr) thr).at x y =
        (fill_mask_holes m thr).at x y := by
  refine ⟨rfl, rfl, fun x hx y hy => ?_⟩
  have hFF := fill_at_eq (fill_mask_holes m thr) thr hw hh hx hy
  rcases fill_at_binary m thr hx hy with h255 | h0
  · rw [h255]
    exact hFF.1.mpr (Or.inl (by rw [h255]; exact hthr))
  · rw [h0]
    obtain ⟨hmlt, hreach⟩ := (fill_at_eq m thr hw hh hx hy).2.mp h0
    refine hFF.2.mpr ⟨by rw [h0]; omega, ?_⟩
    exact reach_fill_of_reach m thr hw hh (x, y) hreach

/-- Witness for C5 on the 3×3 enclosed-hole image with threshold 128. -/
theorem fill_mask_holes_idempotent_witness :
    (0 : Nat) < 3 ∧ (128 : Nat) ≤ 255 ∧
    (fill_mask_holes (fill_mask_holes
        ⟨3, 3, [255, 255, 255, 255, 0, 255, 255, 255, 255]⟩ 128) 128).at 1 1 =
      (fill_mask_holes
        ⟨3, 3, [255, 255, 255, 255, 0, 255, 255, 255, 255]⟩ 128).at 1 1 :=
  ⟨by decide, by decide,
    (fill_mask_holes_idempotent
      ⟨3, 3, [255, 255, 255, 255, 0, 255, 255, 255, 255]⟩ 128 (by decide)
      (by decide) (by decide)).2.2 1 (by decide) 1 (by decide)⟩

end Outline
